import Mathlib

/-!
# Verification of the tabular data-access layer of `pandas-basics-lesson-and-challenge`

The repository is a notebook (`src/pandas_basics.ipynb`) that loads a customer
CSV into a pandas DataFrame and exercises a small set of tabular operations:

* `explore_dataframe(df)` — `df.head()`, `df.info()`, `df.describe()`;
* `data_selection(df)` — column projection `df[['age','annual_income']]`,
  boolean filtering `df[df['loyalty_score'] > 75]`, and label-range selection
  `df.loc[0:4, ['user_id','age','purchase_amount']]`;
* `data_operations(df)` — the derived column
  `df['average_purchase'] = df['purchase_amount'] / df['purchase_frequency']`
  and `df.sort_values('purchase_amount', ascending=False)`.

The specification (spec.md) abstracts these into a language-agnostic tabular
core (Table, Inspector, Selector, Transformer).  This file gives a shallow
embedding of that core.  A `Table` is a list of column names together with
labeled rows; cell values are integers, IEEE-style floats (modelled exactly:
finite values as rationals plus the `inf` / `-inf` / `nan` specials that
Python's true division produces), or text.  Operations are translated from the
notebook's pandas calls where the notebook pins them down, and from the spec's
contracts (`Modelled from the spec:` in the doc string) where the deciding
behaviour lives outside the repository (the pandas library internals, the CSV
data file, and the error taxonomy the spec designs in §4/§7).
-/

namespace PandasBasics

/-- IEEE-754-style floating-point value, modelled exactly: a finite value is
kept as the rational it denotes, and the three special values produced by
Python/NumPy true division are explicit constructors.  Rounding is not
modelled; none of the verified properties depends on it. -/
inductive Fp where
  | fin (q : ℚ)
  | posInf
  | negInf
  | nan
deriving DecidableEq, Repr

/-- A cell value: integer, floating-point, or text — the three semantic
types of spec.md §3. -/
inductive Value where
  | int (z : ℤ)
  | float (f : Fp)
  | text (s : String)
deriving DecidableEq, Repr

namespace Value

/-- `true` on finite numeric values (integer, or finite float). -/
def isNum : Value → Bool
  | int _ => true
  | float (.fin _) => true
  | _ => false

/-- The rational denoted by a finite numeric value.  Text and non-finite
floats get a default; every property below that compares values numerically
carries a hypothesis ruling those out. -/
def num : Value → ℚ
  | int z => z
  | float (.fin q) => q
  | _ => 0

/-- `true` exactly on floating-point values (of any payload): this is the
element-type ("dtype") test used to state that true division always yields
floats. -/
def isFloat : Value → Bool
  | float _ => true
  | _ => false

end Value

/-- A row: its index label paired with the cell values, aligned with the
table's column-name list.  Labels are natural numbers (the default ordinal
index `0..N-1` assigned by the loader); selection and sorting carry labels
along unchanged, so sub-tables keep the original labels. -/
abbrev Row := Nat × List Value

/-- The Table of spec.md §3: an ordered list of column names and the labeled
rows.  The well-formedness invariants (every row has one value per column,
names unique) are stated as hypotheses on the theorems that need them. -/
structure Table where
  cols : List String
  rows : List Row
deriving DecidableEq, Repr

/-- The error taxonomy of spec.md §7 (the part exercised by the core
operations). -/
inductive Err where
  | UnknownColumn
  | OutOfRange
  | DuplicateColumn
deriving DecidableEq, Repr

namespace Table

/-- Number of rows. -/
def rowCount (t : Table) : Nat := t.rows.length

/-- The value a row holds in the column at position `ci` (default `int 0`
when the row is too short; the row-length invariant makes that unreachable). -/
def cellAt (ci : Nat) (r : Row) : Value := r.2.getD ci (.int 0)

/-- The value a row holds in the named column, looked up through the table's
column-name list (first match, as pandas column access does). -/
def cell (t : Table) (c : String) (r : Row) : Option Value :=
  (t.cols.zip r.2).lookup c

/-! ## Inspector -/

/-- `df.head(n)`: the first `n` rows (all of them when `n` exceeds the row
count), all columns, values unmodified — `explore_dataframe` uses `n = 5`. -/
def preview (t : Table) (n : Nat := 5) : Table :=
  { cols := t.cols, rows := t.rows.take n }

/-! ## Selector -/

/-- `df[cols]` (column projection): the requested columns in the requested
order, every row, labels preserved; `UnknownColumn` when a requested name is
absent.  Translated from `df[['age', 'annual_income']]` in `data_selection`
and the contract of spec.md §4.3. -/
def projectedRow (t : Table) (cs : List String) (r : Row) : Row :=
  (r.1, cs.map fun c => ((t.cols.zip r.2).lookup c).getD (.int 0))

/-- The table `project` builds on success: the requested columns in the
requested order, each row restricted accordingly, labels untouched. -/
def projected (t : Table) (cs : List String) : Table :=
  { cols := cs
    rows := t.rows.map (projectedRow t cs) }

/-- `df[cs]` with the `UnknownColumn` check of spec.md §4.3. -/
def project (t : Table) (cs : List String) : Except Err Table :=
  if cs.all (fun c => t.cols.contains c) then .ok (projected t cs)
  else .error .UnknownColumn

/-- `df[df[col] > x]` (boolean filtering): the rows satisfying the per-row
predicate, in original relative order, labels preserved, columns unchanged.
Translated from `df[df['loyalty_score'] > 75]` in `data_selection`. -/
def filterRows (t : Table) (p : Row → Bool) : Table :=
  { cols := t.cols, rows := t.rows.filter p }

/-- `df.loc[lo:hi, cs]` (label-range selection).  Modelled from the spec:
pandas `loc` slicing internals are outside the repository; spec.md §4.3 fixes
the contract — inclusive of both endpoint labels, `OutOfRange` when an
endpoint label is absent from the index, `UnknownColumn` as in `project`.
Translated for a monotone default index, where the slice is exactly the rows
whose label lies between the endpoints. -/
def labelRange (t : Table) (lo hi : Nat) (cs : List String) : Except Err Table :=
  if (t.rows.map Prod.fst).contains lo ∧ (t.rows.map Prod.fst).contains hi then
    project { cols := t.cols, rows := t.rows.filter fun r => lo ≤ r.1 ∧ r.1 ≤ hi } cs
  else
    .error .OutOfRange

/-! ## Transformer -/

/-- Python/NumPy true division of two (finite) numeric values, as exact
arithmetic: `a / b` for nonzero `b`; for `b = 0` the elementwise result NumPy
produces is `inf`, `-inf` or `nan` according to the sign of `a`.  Translated
from `df['purchase_amount'] / df['purchase_frequency']` in `data_operations`. -/
def divQ (a b : ℚ) : Fp :=
  if b ≠ 0 then .fin (a / b)
  else if 0 < a then .posInf
  else if a < 0 then .negInf
  else .nan

/-- The elementwise quotient of the two named columns at one row: always a
floating-point value (true division), computed by `divQ`. -/
def divCols (t : Table) (c₁ c₂ : String) (r : Row) : Value :=
  .float (divQ ((t.cell c₁ r).getD (.int 0)).num ((t.cell c₂ r).getD (.int 0)).num)

/-- `df[name] = series` (pandas column assignment, as written in
`data_operations`): replaces the column in place when `name` already exists,
otherwise appends it; row count and all other columns are unchanged. -/
def setColumn (t : Table) (name : String) (f : Row → Value) : Table :=
  if name ∈ t.cols then
    { cols := t.cols, rows := t.rows.map fun r => (r.1, r.2.set (t.cols.indexOf name) (f r)) }
  else
    { cols := t.cols ++ [name], rows := t.rows.map fun r => (r.1, r.2 ++ [f r]) }

/-- Modelled from the spec: `add_derived_column(t, new_name, fn)` of spec.md
§4.4 — the spec's designed core rejects a name collision with
`DuplicateColumn` (the notebook's raw assignment never exercises one: the
derived name `average_purchase` is fresh there); on a fresh name it appends
the computed column, leaving all existing columns and the row count
unchanged. -/
def addDerivedColumn (t : Table) (name : String) (f : Row → Value) : Except Err Table :=
  if name ∈ t.cols then .error .DuplicateColumn
  else .ok { cols := t.cols ++ [name], rows := t.rows.map fun r => (r.1, r.2 ++ [f r]) }

/-- The sort key a row contributes in the column at position `ci`. -/
def sortKey (ci : Nat) (r : Row) : ℚ := (cellAt ci r).num

/-- The key oriented by sort direction: descending order is ascending order
of the negated key. -/
def dirKey (ci : Nat) (asc : Bool) (x : Nat × Row) : ℚ :=
  if asc then sortKey ci x.2 else -(sortKey ci x.2)

/-- The total preorder a stable sort follows on position-decorated rows:
compare oriented keys, break ties by the original position (this
lexicographic order on `(key, position)` is exactly what "stable sort by
key" means). -/
def rowLe (ci : Nat) (asc : Bool) (x y : Nat × Row) : Prop :=
  dirKey ci asc x < dirKey ci asc y ∨ (dirKey ci asc x = dirKey ci asc y ∧ x.1 ≤ y.1)

instance (ci : Nat) (asc : Bool) : DecidableRel (rowLe ci asc) := fun x y => by
  unfold rowLe; infer_instance

instance (ci : Nat) (asc : Bool) : IsTotal (Nat × Row) (rowLe ci asc) := by
  constructor
  intro x y
  rcases lt_trichotomy (dirKey ci asc x) (dirKey ci asc y) with h | h | h
  · exact Or.inl (Or.inl h)
  · rcases Nat.le_total x.1 y.1 with h' | h'
    · exact Or.inl (Or.inr ⟨h, h'⟩)
    · exact Or.inr (Or.inr ⟨h.symm, h'⟩)
  · exact Or.inr (Or.inl h)

instance (ci : Nat) (asc : Bool) : IsTrans (Nat × Row) (rowLe ci asc) := by
  constructor
  intro x y z hxy hyz
  rcases hxy with h1 | ⟨h1, h1'⟩ <;> rcases hyz with h2 | ⟨h2, h2'⟩
  · exact Or.inl (h1.trans h2)
  · exact Or.inl (h2 ▸ h1)
  · exact Or.inl (h1 ▸ h2)
  · exact Or.inr ⟨h1.trans h2, h1'.trans h2'⟩

/-- Stable sort of a row list by the column at position `ci`:
decorate each row with its position, sort by the lexicographic order
`rowLe`, drop the decoration.  Modelled from the spec: the notebook's
`df.sort_values('purchase_amount', ascending=False)` delegates ordering to
pandas internals outside the repository; spec.md §4.4 fixes the contract —
ties are broken by preserving original relative row order. -/
def sortRows (ci : Nat) (asc : Bool) (rows : List Row) : List Row :=
  (rows.enum.insertionSort (rowLe ci asc)).map Prod.snd

/-- `df.sort_values(c, ascending)` under the spec's stable-sort contract:
a new table with rows reordered by the named column, labels travelling with
their rows; `UnknownColumn` when the column is absent. -/
def sortValues (t : Table) (c : String) (asc : Bool) : Except Err Table :=
  match t.cols.indexOf? c with
  | none => .error .UnknownColumn
  | some ci => .ok { cols := t.cols, rows := sortRows ci asc t.rows }

/-! ## Inspector: `describe` -/

/-- Percentile with linear interpolation between order statistics
(spec.md §4.2, matching pandas/NumPy `linear` interpolation): for sorted
values and rank `p` in `[0,100]`, position `= p/100 * (count-1)`;
interpolate linearly between the two bracketing order statistics. -/
def percentile (p : ℚ) (sorted : List ℚ) : ℚ :=
  let pos : ℚ := p * ((sorted.length : ℚ) - 1) / 100
  let i : Nat := (⌊pos⌋).toNat
  let lo := sorted.getD i 0
  let hi := sorted.getD (i + 1) lo
  lo + (pos - (i : ℚ)) * (hi - lo)

/-- The per-column statistical report of `df.describe()`: count, mean,
sample variance (the square of the sample standard deviation, `N-1`
denominator, reported as `none` — pandas prints NaN — when fewer than two
values exist), min, quartiles, max.  The standard deviation itself is the
square root of `std2`; the verified properties only need the case
`std2 = 0`, where the deviation is `0` as well. -/
structure ColStats where
  count : Nat
  mean : ℚ
  std2 : Option ℚ
  min : ℚ
  q25 : ℚ
  q50 : ℚ
  q75 : ℚ
  max : ℚ
deriving DecidableEq, Repr

/-- Statistics of one numeric column's values (`none` for an empty column,
which `df.describe()` never reports in this scope). -/
def statsOf (l : List ℚ) : Option ColStats :=
  match l with
  | [] => none
  | _ :: _ =>
    let n : ℚ := l.length
    let mean := l.sum / n
    let sorted := l.insertionSort (· ≤ ·)
    some { count := l.length
           mean := mean
           std2 := if 2 ≤ l.length then some (((l.map fun x => (x - mean) ^ 2).sum) / (n - 1)) else none
           min := sorted.getD 0 0
           q25 := percentile 25 sorted
           q50 := percentile 50 sorted
           q75 := percentile 75 sorted
           max := sorted.getLastD 0 }

/-- The values of the column at position `ci`, as rationals. -/
def colVals (t : Table) (ci : Nat) : List ℚ :=
  t.rows.map fun r => (cellAt ci r).num

/-- `df.describe()`: the statistical report, for every numeric column only
(a column holding any text value has object dtype and is excluded).
Translated from `explore_dataframe`'s `df.describe()` with the contract of
spec.md §4.2. -/
def describe (t : Table) : List (String × ColStats) :=
  t.cols.enum.filterMap fun p =>
    if t.rows.all (fun r => (cellAt p.1 r).isNum) then
      (statsOf (colVals t p.1)).map fun s => (p.2, s)
    else none

/-! ## The notebook's three demonstration functions, as state functions

Each notebook function receives the DataFrame `df` and prints derived
views; only `data_operations` assigns to `df` (the column assignment
mutates the caller's DataFrame in place).  Each is embedded as the function
taking the value of `df` before the call to its value after the call. -/

/-- The boolean predicate `df[c] > x` applied to one row. -/
def gtPred (t : Table) (c : String) (x : ℚ) : Row → Bool :=
  fun r => decide (x < ((t.cell c r).getD (.int 0)).num)

end Table

open Table in
/-- `explore_dataframe(df)`: prints `df.head()`, `df.info()`,
`df.describe()` — all reads; the DataFrame is unchanged. -/
def exploreDataframe (df : Table) : Table :=
  df

open Table in
/-- `data_selection(df)`: prints `df[['age','annual_income']].head()`,
`df[df['loyalty_score'] > 75].head()`, and
`df.loc[0:4, ['user_id','age','purchase_amount']]` — all reads; the
DataFrame is unchanged. -/
def dataSelection (df : Table) : Table :=
  df

open Table in
/-- `data_operations(df)`: executes
`df['average_purchase'] = df['purchase_amount'] / df['purchase_frequency']`
(the one mutation of `df` in the notebook), then prints `df.head()` and the
head of `df.sort_values('purchase_amount', ascending=False)` (a read). -/
def dataOperations (df : Table) : Table :=
  setColumn df "average_purchase" (divCols df "purchase_amount" "purchase_frequency")

/-- Modelled from the spec: the reference dataset `data/customer_data.csv`
is not under `src/`; this table follows §6's schema (7 columns:
`user_id, age, annual_income, purchase_amount, loyalty_score, region,
purchase_frequency`), §8's example rows for
`user_id`/`purchase_amount`/`purchase_frequency`, and §8's observed maximum
`loyalty_score` of 9.5. -/
def refTable : Table :=
  { cols := ["user_id", "age", "annual_income", "purchase_amount",
             "loyalty_score", "region", "purchase_frequency"]
    rows := [
      (0, [.int 1, .int 25, .int 45000, .int 200, .float (.fin (9 / 2)), .text "North", .int 12]),
      (1, [.int 2, .int 34, .int 55000, .int 350, .float (.fin (15 / 2)), .text "South", .int 18]),
      (2, [.int 3, .int 45, .int 65000, .int 500, .float (.fin (19 / 2)), .text "East", .int 20])] }

/-- A six-row table with the default ordinal index `0..5`, used to witness
the label-range property. -/
def sixRowTable : Table :=
  { cols := ["user_id", "age", "purchase_amount"]
    rows := [
      (0, [.int 1, .int 25, .int 200]),
      (1, [.int 2, .int 34, .int 350]),
      (2, [.int 3, .int 45, .int 500]),
      (3, [.int 4, .int 28, .int 120]),
      (4, [.int 5, .int 52, .int 410]),
      (5, [.int 6, .int 39, .int 275])] }

/-- A table whose `purchase_amount` column contains ties, used to witness
the stable-sort property. -/
def tiedTable : Table :=
  { cols := ["user_id", "purchase_amount"]
    rows := [
      (0, [.int 1, .int 300]),
      (1, [.int 2, .int 500]),
      (2, [.int 3, .int 500]),
      (3, [.int 4, .int 100])] }

/-- A table whose `purchase_frequency` column contains zeros of both
signs of numerator, used to witness the division-by-zero policy. -/
def zeroFreqTable : Table :=
  { cols := ["purchase_amount", "purchase_frequency"]
    rows := [
      (0, [.int 150, .int 10]),
      (1, [.int 5, .int 0]),
      (2, [.int (-3), .int 0]),
      (3, [.int 0, .int 0])] }

/-- A table with a numeric column constantly `5` and a text column, used to
witness the `describe` property. -/
def constTable : Table :=
  { cols := ["score", "region"]
    rows := [
      (0, [.int 5, .text "North"]),
      (1, [.int 5, .text "South"]),
      (2, [.int 5, .text "East"]),
      (3, [.int 5, .text "West"])] }

/-! ## Helper lemmas about the stable sort -/

namespace Table

open List in
lemma sortRows_perm (ci : Nat) (asc : Bool) (rows : List Row) :
    (sortRows ci asc rows).Perm rows := by
  have h : (rows.enum.insertionSort (rowLe ci asc)).Perm rows.enum :=
    List.perm_insertionSort (rowLe ci asc) rows.enum
  calc sortRows ci asc rows
      = (rows.enum.insertionSort (rowLe ci asc)).map Prod.snd := rfl
    _ ~ rows.enum.map Prod.snd := h.map Prod.snd
    _ = rows := List.enum_map_snd rows

open List in
/-- Stability: sorting does not disturb the subsequence of rows sharing any
one key value. -/
lemma sortRows_stable (ci : Nat) (asc : Bool) (rows : List Row) (k : ℚ) :
    (sortRows ci asc rows).filter (fun r => decide (sortKey ci r = k)) =
      rows.filter (fun r => decide (sortKey ci r = k)) := by
  set p : Row → Bool := fun r => decide (sortKey ci r = k) with hp
  set q : (Nat × Row) → Bool := fun x => p x.2 with hq
  set E := rows.enum with hE
  set D := E.insertionSort (rowLe ci asc) with hD
  have hperm : D.Perm E := List.perm_insertionSort (rowLe ci asc) E
  have hsort : List.Sorted (rowLe ci asc) D := List.sorted_insertionSort (rowLe ci asc) E
  have hfp : (D.filter q).Perm (E.filter q) := hperm.filter q
  -- the filtered original subsequence is strictly increasing in position
  have hEpw : E.Pairwise (fun x y : Nat × Row => x.1 < y.1) := by
    have h1 : (E.map Prod.fst).Pairwise (· < ·) := by
      rw [hE, List.enum_map_fst]
      exact List.pairwise_lt_range rows.length
    exact (List.pairwise_map).mp h1
  have hEk : (E.filter q).Pairwise (fun x y : Nat × Row => x.1 < y.1) :=
    hEpw.sublist (List.filter_sublist E)
  -- the filtered sorted subsequence is also strictly increasing in position
  have hDk_le : (D.filter q).Pairwise (fun x y : Nat × Row => x.1 ≤ y.1) := by
    have hs : (D.filter q).Pairwise (rowLe ci asc) := hsort.sublist (List.filter_sublist D)
    refine hs.imp_of_mem ?_
    intro a b ha hb hab
    have hak : sortKey ci a.2 = k := by
      have := (List.mem_filter.mp ha).2
      simpa [hq, hp] using this
    have hbk : sortKey ci b.2 = k := by
      have := (List.mem_filter.mp hb).2
      simpa [hq, hp] using this
    have hdk : dirKey ci asc a = dirKey ci asc b := by
      simp [dirKey, hak, hbk]
    rcases hab with h | ⟨_, h⟩
    · rw [hdk] at h; exact absurd h (lt_irrefl _)
    · exact h
  have hnodup : ((D.filter q).map Prod.fst).Nodup := by
    have hEnd : ((E.filter q).map Prod.fst).Nodup :=
      ((List.pairwise_map).mpr hEk).imp ne_of_lt
    exact ((hfp.map Prod.fst).nodup_iff).mpr hEnd
  have hDk : (D.filter q).Pairwise (fun x y : Nat × Row => x.1 < y.1) := by
    have hne : (D.filter q).Pairwise (fun x y : Nat × Row => x.1 ≠ y.1) :=
      (List.pairwise_map).mp hnodup
    exact (hDk_le.and hne).imp fun h => lt_of_le_of_ne h.1 h.2
  haveI : IsAntisymm (Nat × Row) (fun x y : Nat × Row => x.1 < y.1) :=
    ⟨fun a b h1 h2 => absurd (h1.trans h2) (lt_irrefl _)⟩
  have heq : D.filter q = E.filter q := List.eq_of_perm_of_sorted hfp hDk hEk
  have hpq : (p ∘ Prod.snd) = q := rfl
  calc (sortRows ci asc rows).filter p
      = (D.map Prod.snd).filter p := rfl
    _ = (D.filter (p ∘ Prod.snd)).map Prod.snd := List.filter_map Prod.snd D
    _ = (E.filter (p ∘ Prod.snd)).map Prod.snd := by rw [hpq, heq]
    _ = (E.map Prod.snd).filter p := (List.filter_map Prod.snd E).symm
    _ = rows.filter p := by rw [hE, List.enum_map_snd]

open List in
/-- In a descending stable sort, the first row's key dominates every key. -/
lemma sortRows_head_max (ci : Nat) (rows : List Row) (r : Row) (rest : List Row)
    (h : sortRows ci false rows = r :: rest) :
    ∀ s ∈ rows, sortKey ci s ≤ sortKey ci r := by
  intro s hs
  have hperm : (rows.enum.insertionSort (rowLe ci false)).Perm rows.enum :=
    List.perm_insertionSort (rowLe ci false) rows.enum
  have hsort : List.Sorted (rowLe ci false) (rows.enum.insertionSort (rowLe ci false)) :=
    List.sorted_insertionSort (rowLe ci false) rows.enum
  -- the decorated sorted list starts with a decoration of `r`
  obtain ⟨d, D', hD⟩ : ∃ d D', rows.enum.insertionSort (rowLe ci false) = d :: D' := by
    cases hcase : rows.enum.insertionSort (rowLe ci false) with
    | nil => rw [sortRows, hcase] at h; simp at h
    | cons d D' => exact ⟨d, D', rfl⟩
  have hdr : d.2 = r := by
    rw [sortRows, hD] at h
    simpa using congrArg List.head? h
  -- find the decoration of `s` in the sorted list
  obtain ⟨x, hxE, hxs⟩ : ∃ x ∈ rows.enum, x.2 = s := by
    have : s ∈ rows.enum.map Prod.snd := by rw [List.enum_map_snd]; exact hs
    exact List.mem_map.mp this
  have hxD : x ∈ d :: D' := by rw [← hD]; exact hperm.symm.subset hxE
  rcases List.mem_cons.mp hxD with hxd | hxD'
  · rw [← hxs, hxd, hdr]
  · have hle : rowLe ci false d x := (List.pairwise_cons.mp (hD ▸ hsort)).1 x hxD'
    rcases hle with hlt | ⟨heq, _⟩
    · have : sortKey ci x.2 < sortKey ci d.2 := by
        simpa [dirKey] using hlt
      rw [← hxs, ← hdr]; exact this.le
    · have : sortKey ci d.2 = sortKey ci x.2 := by
        simpa [dirKey] using heq
      rw [← hxs, ← hdr, ← this]

open List in
/-- Looking a key up in a list zipped with its own image under `f` returns
the image of the key. -/
lemma lookup_zip_map (cs : List String) (f : String → Value) (c : String) (h : c ∈ cs) :
    (cs.zip (cs.map f)).lookup c = some (f c) := by
  induction cs with
  | nil => simp at h
  | cons a as ih =>
    by_cases hca : c = a
    · subst hca
      simp [List.lookup]
    · rcases List.mem_cons.mp h with h' | h'
      · exact absurd h' hca
      · have hba : (c == a) = false := beq_false_of_ne hca
        simp only [List.map_cons, List.zip_cons_cons, List.lookup, hba]
        simpa [List.zip] using ih h'

/-- `project` on present columns succeeds, with the computed table. -/
lemma project_ok (t : Table) (cs : List String)
    (h : cs.all (fun c => t.cols.contains c) = true) :
    project t cs = .ok (projected t cs) := by
  unfold project
  rw [if_pos h]

open List in
/-- The sub-`[0,4]` labels of a default index of at least five rows are
exactly `[0, 1, 2, 3, 4]`. -/
lemma range_filter_le_four {N : Nat} (hN : 5 ≤ N) :
    (List.range N).filter (fun n => decide (0 ≤ n ∧ n ≤ 4)) = [0, 1, 2, 3, 4] := by
  induction N, hN using Nat.le_induction with
  | base => decide
  | succ n hn ih =>
    rw [List.range_succ, List.filter_append, ih]
    have h4 : ¬ (n ≤ 4) := by omega
    simp [h4]

end Table

/-! ## Claim theorems -/

open Table

/-- C2: for every table `t` and per-row boolean predicate `p`,
`filter(t, p)` has at most as many rows as `t`, every returned row
satisfies `p`, every row of `t` not returned fails `p`, the returned rows
form a subsequence of `t`'s rows (original relative order, original
index labels carried verbatim), and the columns are unchanged. -/
theorem filter_rows_spec (t : Table) (p : Row → Bool) :
    (filterRows t p).rowCount ≤ t.rowCount ∧
    (filterRows t p).cols = t.cols ∧
    (∀ r ∈ (filterRows t p).rows, p r = true) ∧
    (∀ r ∈ t.rows, r ∉ (filterRows t p).rows → p r = false) ∧
    (∀ r ∈ t.rows, p r = true → r ∈ (filterRows t p).rows) ∧
    (filterRows t p).rows.Sublist t.rows := by
  refine ⟨List.length_filter_le p t.rows, rfl, ?_, ?_, ?_, List.filter_sublist t.rows⟩
  · intro r hr
    exact (List.mem_filter.mp hr).2
  · intro r hr hnot
    cases hp : p r with
    | false => rfl
    | true => exact absurd (List.mem_filter.mpr ⟨hr, hp⟩) hnot
  · intro r hr hp
    exact List.mem_filter.mpr ⟨hr, hp⟩

/-- C5: filtering with a predicate no row satisfies succeeds with a
zero-row table that keeps all the columns of the input. -/
theorem filter_none_empty (t : Table) (p : Row → Bool)
    (h : ∀ r ∈ t.rows, p r = false) :
    (filterRows t p).rows = [] ∧ (filterRows t p).cols = t.cols := by
  refine ⟨List.filter_eq_nil_iff.mpr ?_, rfl⟩
  intro r hr
  rw [h r hr]
  exact Bool.false_ne_true

/-- Witness for C5: on the reference dataset, whose maximum
`loyalty_score` is 9.5, filtering by `loyalty_score > 75` yields zero rows
with the original 7 columns preserved. -/
theorem filter_none_empty_witness :
    (filterRows refTable (gtPred refTable "loyalty_score" 75)).rows = [] ∧
    (filterRows refTable (gtPred refTable "loyalty_score" 75)).cols = refTable.cols ∧
    refTable.cols.length = 7 := by
  have h := filter_none_empty refTable (gtPred refTable "loyalty_score" 75) ?side
  · exact ⟨h.1, h.2, by decide⟩
  case side =>
    intro r hr
    simp only [refTable, List.mem_cons, List.not_mem_nil, or_false] at hr
    rcases hr with h' | h' | h' <;> subst h' <;>
      simp [gtPred, Table.cell, List.lookup, List.zip, Value.num] <;> norm_num

/-- C3: `add_derived_column` fails with the distinguishable
`DuplicateColumn` error exactly when the new name is already a column
(no silent replacement); on a fresh name it succeeds and appends the
computed column under that name. -/
theorem add_derived_column_duplicate (t : Table) (name : String) (f : Row → Value) :
    (name ∈ t.cols → addDerivedColumn t name f = .error .DuplicateColumn) ∧
    (name ∉ t.cols →
      addDerivedColumn t name f =
        .ok { cols := t.cols ++ [name]
              rows := t.rows.map fun r => (r.1, r.2 ++ [f r]) }) := by
  constructor <;> intro h <;> simp [addDerivedColumn, h]

/-- Witness for C3: on the reference dataset, deriving a column named
`user_id` (an existing column) fails with `DuplicateColumn`, while the
fresh name `average_purchase` succeeds and appends the column. -/
theorem add_derived_column_duplicate_witness :
    addDerivedColumn refTable "user_id"
        (divCols refTable "purchase_amount" "purchase_frequency") =
      .error .DuplicateColumn ∧
    addDerivedColumn refTable "average_purchase"
        (divCols refTable "purchase_amount" "purchase_frequency") =
      .ok { cols := refTable.cols ++ ["average_purchase"]
            rows := refTable.rows.map fun r =>
              (r.1, r.2 ++ [divCols refTable "purchase_amount" "purchase_frequency" r]) } :=
  ⟨(add_derived_column_duplicate refTable "user_id" _).1 (by decide),
   (add_derived_column_duplicate refTable "average_purchase" _).2 (by decide)⟩

/-- C8: on columns all present in `t`, `project` succeeds with only the
requested columns in the requested order, all rows with their index labels
preserved, and it is idempotent: projecting the projection onto the same
columns returns it unchanged. -/
theorem project_idempotent (t : Table) (cs : List String)
    (h : cs.all (fun c => t.cols.contains c) = true) :
    ∃ u, project t cs = .ok u ∧ u.cols = cs ∧
      u.rows.length = t.rows.length ∧
      u.rows.map Prod.fst = t.rows.map Prod.fst ∧
      project u cs = .ok u := by
  refine ⟨projected t cs, project_ok t cs h, rfl, by simp [projected], ?_, ?_⟩
  · simp only [projected, List.map_map]
    exact List.map_congr_left fun r _ => rfl
  · have hall : cs.all (fun c => (projected t cs).cols.contains c) = true := by
      simp only [projected, List.all_eq_true]
      intro c hc
      exact List.elem_iff.mpr hc
    rw [project_ok (projected t cs) cs hall]
    have key : ∀ f : String → Value,
        (cs.map fun c => ((cs.zip (cs.map f)).lookup c).getD (Value.int 0)) = cs.map f := by
      intro f
      refine List.map_congr_left fun c hc => ?_
      rw [lookup_zip_map cs f c hc, Option.getD_some]
    have hrows : ∀ r ∈ t.rows,
        projectedRow (projected t cs) cs (projectedRow t cs r) = projectedRow t cs r := by
      intro r _
      exact congrArg (Prod.mk r.1)
        (key fun c => ((t.cols.zip r.2).lookup c).getD (Value.int 0))
    refine congrArg Except.ok ?_
    show projected (projected t cs) cs = projected t cs
    refine congrArg (Table.mk cs) ?_
    show (t.rows.map (projectedRow t cs)).map (projectedRow (projected t cs) cs) =
      t.rows.map (projectedRow t cs)
    rw [List.map_map]
    exact List.map_congr_left fun r hr => hrows r hr

/-- Witness for C8: projecting the reference dataset onto
`["age", "annual_income"]` succeeds, keeps all rows and labels, and is
idempotent. -/
theorem project_idempotent_witness :
    ∃ u, project refTable ["age", "annual_income"] = .ok u ∧
      u.cols = ["age", "annual_income"] ∧
      u.rows.length = refTable.rows.length ∧
      u.rows.map Prod.fst = refTable.rows.map Prod.fst ∧
      project u ["age", "annual_income"] = .ok u :=
  project_idempotent refTable ["age", "annual_income"] (by decide)

/-- C7: on a table carrying the default ordinal index `0..N-1` with
`N ≥ 5`, `label_range(t, 0, 4, cs)` is inclusive of both endpoint labels
and returns exactly 5 rows — those labeled `0,1,2,3,4` — restricted to the
requested columns in the requested order. -/
theorem label_range_inclusive (t : Table) (cs : List String) (N : Nat)
    (hidx : t.rows.map Prod.fst = List.range N) (hN : 5 ≤ N)
    (hcs : cs.all (fun c => t.cols.contains c) = true) :
    ∃ u, labelRange t 0 4 cs = .ok u ∧ u.cols = cs ∧ u.rows.length = 5 ∧
      u.rows.map Prod.fst = [0, 1, 2, 3, 4] := by
  have hmem : ∀ m : Nat, m < N → (t.rows.map Prod.fst).contains m = true := by
    intro m hm
    rw [hidx]
    exact List.elem_iff.mpr (List.mem_range.mpr hm)
  have h0 := hmem 0 (by omega)
  have h4 := hmem 4 (by omega)
  set t' : Table := { cols := t.cols, rows := t.rows.filter fun r => 0 ≤ r.1 ∧ r.1 ≤ 4 } with ht'
  have hrange : labelRange t 0 4 cs = project t' cs := by
    unfold labelRange
    rw [if_pos ⟨h0, h4⟩]
  have hfst : t'.rows.map Prod.fst = [0, 1, 2, 3, 4] := by
    have hcomm : t'.rows.map Prod.fst =
        (t.rows.map Prod.fst).filter fun n => decide (0 ≤ n ∧ n ≤ 4) := by
      rw [ht']
      show (t.rows.filter ((fun n => decide (0 ≤ n ∧ n ≤ 4)) ∘ Prod.fst)).map Prod.fst =
        (t.rows.map Prod.fst).filter fun n => decide (0 ≤ n ∧ n ≤ 4)
      exact (List.filter_map Prod.fst t.rows).symm
    rw [hcomm, hidx]
    exact range_filter_le_four hN
  refine ⟨projected t' cs, ?_, rfl, ?_, ?_⟩
  · rw [hrange]
    exact project_ok t' cs hcs
  · have : (projected t' cs).rows.map Prod.fst = t'.rows.map Prod.fst := by
      simp only [projected, List.map_map]
      exact List.map_congr_left fun r _ => rfl
    have hlen : (projected t' cs).rows.length = ([0, 1, 2, 3, 4] : List Nat).length := by
      rw [← List.length_map (projected t' cs).rows Prod.fst, this, hfst]
    simpa using hlen
  · simp only [projected, List.map_map]
    rw [← hfst]
    exact List.map_congr_left fun r _ => rfl

/-- Witness for C7: on a six-row table with the default index,
`label_range(t, 0, 4, ["user_id", "age"])` returns exactly the five rows
labeled 0–4. -/
theorem label_range_inclusive_witness :
    ∃ u, labelRange sixRowTable 0 4 ["user_id", "age"] = .ok u ∧
      u.cols = ["user_id", "age"] ∧ u.rows.length = 5 ∧
      u.rows.map Prod.fst = [0, 1, 2, 3, 4] :=
  label_range_inclusive sixRowTable ["user_id", "age"] 6 (by decide) (by decide) (by decide)

/-- C4: the derived-column computation applies one explicit division-by-zero
policy uniformly to every element: each row whose denominator is zero gets a
per-element signed-infinity/undefined-value marker (`inf`, `-inf` or `nan`
by the numerator's sign), and every row with a nonzero denominator gets the
exact finite quotient; the whole operation still succeeds and the element
lands in the output table. -/
theorem division_by_zero_policy (t : Table) (name c₁ c₂ : String) (u : Table) (r : Row)
    (h : addDerivedColumn t name (divCols t c₁ c₂) = .ok u) (hr : r ∈ t.rows) :
    (r.1, r.2 ++ [divCols t c₁ c₂ r]) ∈ u.rows ∧
    (((t.cell c₂ r).getD (.int 0)).num = 0 →
      divCols t c₁ c₂ r = .float .posInf ∨ divCols t c₁ c₂ r = .float .negInf ∨
        divCols t c₁ c₂ r = .float .nan) ∧
    (((t.cell c₂ r).getD (.int 0)).num ≠ 0 →
      divCols t c₁ c₂ r =
        .float (.fin (((t.cell c₁ r).getD (.int 0)).num / ((t.cell c₂ r).getD (.int 0)).num))) := by
  have hu : u.rows = t.rows.map fun s => (s.1, s.2 ++ [divCols t c₁ c₂ s]) := by
    by_cases hn : name ∈ t.cols <;> simp [addDerivedColumn, hn] at h
    rw [← h]
  refine ⟨?_, ?_, ?_⟩
  · rw [hu]
    exact List.mem_map_of_mem _ hr
  · intro hz
    unfold divCols divQ
    rw [hz]
    rcases lt_trichotomy 0 (((t.cell c₁ r).getD (.int 0)).num) with ha | ha | ha
    · exact Or.inl (by simp [ha])
    · refine Or.inr (Or.inr ?_)
      simp [← ha]
    · refine Or.inr (Or.inl ?_)
      simp [ha, not_lt_of_gt ha]
  · intro hz
    unfold divCols divQ
    simp [hz]

/-- Witness for C4: on a table whose `purchase_frequency` holds a zero at
the row labeled 1, the derived division succeeds and that element is one of
the three markers. -/
theorem division_by_zero_policy_witness :
    ((1 : Nat), [Value.int 5, Value.int 0] ++
        [divCols zeroFreqTable "purchase_amount" "purchase_frequency" (1, [Value.int 5, Value.int 0])]) ∈
      (Table.mk (zeroFreqTable.cols ++ ["average_purchase"])
        (zeroFreqTable.rows.map fun s =>
          (s.1, s.2 ++ [divCols zeroFreqTable "purchase_amount" "purchase_frequency" s]))).rows ∧
    ((zeroFreqTable.cell "purchase_frequency" (1, [Value.int 5, Value.int 0])).getD (.int 0)).num = 0 ∧
    (divCols zeroFreqTable "purchase_amount" "purchase_frequency" (1, [Value.int 5, Value.int 0]) =
        .float .posInf ∨
      divCols zeroFreqTable "purchase_amount" "purchase_frequency" (1, [Value.int 5, Value.int 0]) =
        .float .negInf ∨
      divCols zeroFreqTable "purchase_amount" "purchase_frequency" (1, [Value.int 5, Value.int 0]) =
        .float .nan) := by
  have hz : ((zeroFreqTable.cell "purchase_frequency" (1, [Value.int 5, Value.int 0])).getD
      (.int 0)).num = 0 := by
    simp [Table.cell, zeroFreqTable, List.lookup, List.zip, Value.num]
  have h := division_by_zero_policy zeroFreqTable "average_purchase"
    "purchase_amount" "purchase_frequency"
    (Table.mk (zeroFreqTable.cols ++ ["average_purchase"])
      (zeroFreqTable.rows.map fun s =>
        (s.1, s.2 ++ [divCols zeroFreqTable "purchase_amount" "purchase_frequency" s])))
    (1, [Value.int 5, Value.int 0]) rfl (by decide)
  exact ⟨h.1, hz, h.2.1 hz⟩

/-- C10: true division of two integer columns produces a floating-point
value in every row — even where the quotient is an exact integer — and the
operand columns' values (hence their element types) are carried into the
result unchanged. -/
theorem true_division_yields_float (t : Table) (name c₁ c₂ : String) (u : Table)
    (h : addDerivedColumn t name (divCols t c₁ c₂) = .ok u)
    (hwf : ∀ r ∈ t.rows, r.2.length = t.cols.length) :
    u.cols = t.cols ++ [name] ∧
    (∀ r ∈ u.rows, (cellAt t.cols.length r).isFloat = true) ∧
    (∀ r ∈ t.rows, (r.1, r.2 ++ [divCols t c₁ c₂ r]) ∈ u.rows) ∧
    (∀ a b : ℚ, b ≠ 0 → divQ a b = .fin (a / b)) ∧
    divQ 150 10 = .fin 15 ∧
    Value.float (.fin 15) ≠ Value.int 15 := by
  have hne : name ∉ t.cols ∧
      u = { cols := t.cols ++ [name]
            rows := t.rows.map fun s => (s.1, s.2 ++ [divCols t c₁ c₂ s]) } := by
    by_cases hn : name ∈ t.cols <;> simp [addDerivedColumn, hn] at h
    exact ⟨hn, h.symm⟩
  obtain ⟨-, hu⟩ := hne
  subst hu
  refine ⟨rfl, ?_, ?_, ?_, ?_, by simp⟩
  · intro r hr
    obtain ⟨s, hs, hsr⟩ := List.mem_map.mp hr
    rw [← hsr]
    have hlen : s.2.length = t.cols.length := hwf s hs
    have hcell : cellAt t.cols.length (s.1, s.2 ++ [divCols t c₁ c₂ s]) = divCols t c₁ c₂ s := by
      unfold cellAt
      rw [← hlen]
      simp
    rw [hcell]
    rfl
  · intro r hr
    exact List.mem_map_of_mem _ hr
  · intro a b hb
    unfold divQ
    simp [hb]
  · have : (150 : ℚ) / 10 = 15 := by norm_num
    unfold divQ
    norm_num [this]

/-- Witness for C10: on the zero-free rows of the witness table the derived
values are floats (e.g. `150 / 10` is the float `15.0`, not the integer
`15`), and the operand columns are carried unchanged. -/
theorem true_division_yields_float_witness :
    (Table.mk (zeroFreqTable.cols ++ ["average_purchase"])
        (zeroFreqTable.rows.map fun s =>
          (s.1, s.2 ++ [divCols zeroFreqTable "purchase_amount" "purchase_frequency" s]))).cols =
      zeroFreqTable.cols ++ ["average_purchase"] ∧
    (∀ r ∈ (Table.mk (zeroFreqTable.cols ++ ["average_purchase"])
        (zeroFreqTable.rows.map fun s =>
          (s.1, s.2 ++ [divCols zeroFreqTable "purchase_amount" "purchase_frequency" s]))).rows,
      (cellAt zeroFreqTable.cols.length r).isFloat = true) ∧
    (∀ r ∈ zeroFreqTable.rows,
      (r.1, r.2 ++ [divCols zeroFreqTable "purchase_amount" "purchase_frequency" r]) ∈
        (Table.mk (zeroFreqTable.cols ++ ["average_purchase"])
          (zeroFreqTable.rows.map fun s =>
            (s.1, s.2 ++ [divCols zeroFreqTable "purchase_amount" "purchase_frequency" s]))).rows) ∧
    (∀ a b : ℚ, b ≠ 0 → divQ a b = .fin (a / b)) ∧
    divQ 150 10 = .fin 15 ∧
    Value.float (.fin 15) ≠ Value.int 15 :=
  true_division_yields_float zeroFreqTable "average_purchase"
    "purchase_amount" "purchase_frequency"
    (Table.mk (zeroFreqTable.cols ++ ["average_purchase"])
      (zeroFreqTable.rows.map fun s =>
        (s.1, s.2 ++ [divCols zeroFreqTable "purchase_amount" "purchase_frequency" s])))
    rfl (by decide)

/-- C6: of the notebook's three demonstration functions — each embedded as
the map from the DataFrame's value before the call to its value after —
`explore_dataframe` (preview/summary/describe) and `data_selection`
(project/filter/label-range) leave the DataFrame unchanged, while
`data_operations`'s derived-column assignment is the one mutation: it
appends the computed column, leaving every existing column value and the
row count unchanged. -/
theorem mutation_discipline (df : Table) (h : "average_purchase" ∉ df.cols) :
    exploreDataframe df = df ∧
    dataSelection df = df ∧
    (dataOperations df).cols = df.cols ++ ["average_purchase"] ∧
    (dataOperations df).rows =
      df.rows.map (fun r => (r.1, r.2 ++ [divCols df "purchase_amount" "purchase_frequency" r])) ∧
    (dataOperations df).rowCount = df.rowCount ∧
    dataOperations df ≠ df := by
  refine ⟨rfl, rfl, ?_, ?_, ?_, ?_⟩
  · simp [dataOperations, setColumn, h]
  · simp [dataOperations, setColumn, h]
  · simp [dataOperations, setColumn, h, rowCount]
  · intro heq
    have hc := congrArg (fun v => v.cols.length) heq
    simp [dataOperations, setColumn, h] at hc

/-- Witness for C6: on the reference dataset (where `average_purchase` is
not yet a column) the three notebook functions behave as stated. -/
theorem mutation_discipline_witness :
    exploreDataframe refTable = refTable ∧
    dataSelection refTable = refTable ∧
    (dataOperations refTable).cols = refTable.cols ++ ["average_purchase"] ∧
    (dataOperations refTable).rows =
      refTable.rows.map
        (fun r => (r.1, r.2 ++ [divCols refTable "purchase_amount" "purchase_frequency" r])) ∧
    (dataOperations refTable).rowCount = refTable.rowCount ∧
    dataOperations refTable ≠ refTable :=
  mutation_discipline refTable (by decide)

/-- C1: sorting is stable — for any key value, the rows carrying that key
appear in the sorted result in their original relative order — and sorting
ascending then re-sorting the result descending yields a permutation of
the original rows (labels travelling along) whose first row is the
original maximum of the column: it attains the maximal key, and among the
rows tied at that key it is the first in original order (the head of the
original tied subsequence), not an arbitrary tied row. -/
theorem sort_stable_max (t : Table) (c : String) (ci : Nat)
    (hci : t.cols.indexOf? c = some ci) (hne : t.rows ≠ []) :
    ∃ u v, sortValues t c true = .ok u ∧ sortValues u c false = .ok v ∧
      v.rows.Perm t.rows ∧
      (∀ k, v.rows.filter (fun s => decide (sortKey ci s = k)) =
            t.rows.filter (fun s => decide (sortKey ci s = k))) ∧
      ∃ r rest, v.rows = r :: rest ∧
        (∀ s ∈ t.rows, sortKey ci s ≤ sortKey ci r) ∧
        (t.rows.filter fun s => decide (sortKey ci s = sortKey ci r)).head? = some r := by
  have hu : sortValues t c true = .ok ⟨t.cols, sortRows ci true t.rows⟩ := by
    unfold sortValues
    rw [hci]
  set u : Table := ⟨t.cols, sortRows ci true t.rows⟩ with hudef
  have hv : sortValues u c false = .ok ⟨t.cols, sortRows ci false u.rows⟩ := by
    unfold sortValues
    rw [show u.cols = t.cols from rfl, hci]
  set v : Table := ⟨t.cols, sortRows ci false u.rows⟩ with hvdef
  have hpermu : u.rows.Perm t.rows := sortRows_perm ci true t.rows
  have hpermv : v.rows.Perm u.rows := sortRows_perm ci false u.rows
  have hperm : v.rows.Perm t.rows := hpermv.trans hpermu
  have hstab : ∀ k, v.rows.filter (fun s => decide (sortKey ci s = k)) =
      t.rows.filter (fun s => decide (sortKey ci s = k)) := by
    intro k
    calc v.rows.filter (fun s => decide (sortKey ci s = k))
        = u.rows.filter (fun s => decide (sortKey ci s = k)) :=
          sortRows_stable ci false u.rows k
      _ = t.rows.filter (fun s => decide (sortKey ci s = k)) :=
          sortRows_stable ci true t.rows k
  have hvne : v.rows ≠ [] := by
    intro h0
    rw [h0] at hperm
    exact hne (hperm.symm.eq_nil)
  obtain ⟨r, rest, hcons⟩ := List.exists_cons_of_ne_nil hvne
  refine ⟨u, v, hu, hv, hperm, hstab, r, rest, hcons, ?_, ?_⟩
  · have hmax : ∀ s ∈ u.rows, sortKey ci s ≤ sortKey ci r :=
      sortRows_head_max ci u.rows r rest hcons
    intro s hs
    exact hmax s (hpermu.mem_iff.mpr hs)
  · have hsf := hstab (sortKey ci r)
    rw [hcons, List.filter_cons_of_pos (by simp)] at hsf
    rw [← hsf]
    rfl

/-- Witness for C1: on a table whose `purchase_amount` column has two rows
tied at the maximum 500 (labels 1 and 2), sort-ascending then
sort-descending puts the row labeled 1 — the first of the tied pair in
original order — at the head. -/
theorem sort_stable_max_witness :
    ∃ u v, sortValues tiedTable "purchase_amount" true = .ok u ∧
      sortValues u "purchase_amount" false = .ok v ∧
      v.rows.Perm tiedTable.rows ∧
      (∀ k, v.rows.filter (fun s => decide (sortKey 1 s = k)) =
            tiedTable.rows.filter (fun s => decide (sortKey 1 s = k))) ∧
      ∃ r rest, v.rows = r :: rest ∧
        (∀ s ∈ tiedTable.rows, sortKey 1 s ≤ sortKey 1 r) ∧
        (tiedTable.rows.filter fun s => decide (sortKey 1 s = sortKey 1 r)).head? = some r :=
  sort_stable_max tiedTable "purchase_amount" 1 (by decide) (by decide)

/-- C9: `describe` reports, for a numeric column holding the constant
sequence `[5,5,5,5]`: count 4, mean 5, sample standard deviation 0 (its
square, with the `N-1` denominator, is 0 — and `√0 = 0`), min 5, max 5,
and 25th/50th/75th percentiles 5 (linear interpolation); any column
holding a text value is excluded from the report; and for a single value
the sample standard deviation is undefined (reported as `none`/NaN). -/
theorem describe_constant_column (t : Table) (ci : Nat) (c : String)
    (hc : t.cols[ci]? = some c)
    (hnum : t.rows.all (fun r => (cellAt ci r).isNum) = true)
    (hvals : colVals t ci = [5, 5, 5, 5]) :
    (c, ColStats.mk 4 5 (some 0) 5 5 5 5 5) ∈ describe t ∧
    (∀ c' ci', t.cols.Nodup → t.cols[ci']? = some c' →
      (∃ r ∈ t.rows, ∃ str, cellAt ci' r = .text str) →
      ∀ s, (c', s) ∉ describe t) ∧
    (∀ x : ℚ, ∃ st, statsOf [x] = some st ∧ st.count = 1 ∧ st.std2 = none) := by
  refine ⟨?_, ?_, ?_⟩
  · refine List.mem_filterMap.mpr ⟨(ci, c), List.mem_enum_iff_getElem?.mpr hc, ?_⟩
    show (if (t.rows.all fun r => (cellAt ci r).isNum) = true then
        (statsOf (colVals t ci)).map fun s => (c, s) else none) =
      some (c, ColStats.mk 4 5 (some 0) 5 5 5 5 5)
    rw [if_pos hnum, hvals]
    have h2 : Int.toNat 2 = 2 := rfl
    have h0 : Int.toNat 0 = 0 := rfl
    have h1 : Int.toNat 1 = 1 := rfl
    norm_num [statsOf, percentile, List.insertionSort, List.orderedInsert, h0, h1, h2]
  · rintro c' ci' hnodup hc' ⟨r₀, hr₀, str, htext⟩ s hmem
    obtain ⟨p, hp, hg⟩ := List.mem_filterMap.mp hmem
    obtain ⟨cj, c''⟩ := p
    have hj : t.cols[cj]? = some c'' := List.mem_enum_iff_getElem?.mp hp
    by_cases hall : (t.rows.all fun r => (cellAt cj r).isNum) = true
    · rw [if_pos hall] at hg
      obtain ⟨st, -, hpair⟩ := Option.map_eq_some'.mp hg
      have hcc : c'' = c' := (Prod.mk.injEq _ _ _ _).mp hpair |>.1
      have hlt : cj < t.cols.length := by
        rcases List.getElem?_eq_some.mp hj with ⟨hl, -⟩
        exact hl
      have hji : cj = ci' := by
        refine List.getElem?_inj hlt hnodup ?_
        rw [hj, hc', hcc]
      have hnum₀ := List.all_eq_true.mp hall r₀ hr₀
      rw [hji, htext] at hnum₀
      exact absurd hnum₀ (by simp [Value.isNum])
    · rw [if_neg hall] at hg
      cases hg
  · intro x
    exact ⟨_, rfl, rfl, rfl⟩

/-- Witness for C9: on a table with a numeric column `score` constantly 5
and a text column `region`, `describe` reports the stated statistics for
`score`, excludes `region`, and a single value has undefined sample
standard deviation. -/
theorem describe_constant_column_witness :
    ((("score" : String), ColStats.mk 4 5 (some 0) 5 5 5 5 5) ∈ describe constTable) ∧
    (∀ s, (("region" : String), s) ∉ describe constTable) ∧
    (∀ x : ℚ, ∃ st, statsOf [x] = some st ∧ st.count = 1 ∧ st.std2 = none) := by
  have h := describe_constant_column constTable 0 "score" (by decide) (by decide)
    (by simp [colVals, constTable, cellAt, Value.num])
  refine ⟨h.1, ?_, h.2.2⟩
  exact h.2.1 "region" 1 (by decide) (by decide)
    ⟨(0, [.int 5, .text "North"]), by decide, "North", by decide⟩

end PandasBasics
